import Mathlib

/-
Verification of the alpha-DS-mixture calibration procedure
(`alpha_DS_calibration.py`).

Shallow embedding conventions:
* Python floats are modelled as exact rationals (ℚ).
* `round(x, d)` is Python's banker's rounding (half to even), modelled
  exactly on ℚ.
* `np.arange(start, stop, step)` for non-zero `step` yields
  `ceil((stop - start) / step)` evenly spaced values; for `step = 0`
  numpy raises a ZeroDivisionError at runtime (in ℚ the division by zero
  collapses to 0, giving the empty list here; theorems about the lattice
  always assume a non-zero step, and the degenerate case is analysed
  separately).
* Python `max(list)` / `min(list)` on a non-empty list are folds; the
  empty-list case (a Python runtime error) is given the junk value 0 and
  excluded by hypotheses.
* List indexing `S1[i]` is `List.getD` with junk default 0; theorems
  carry the in-range hypotheses.
* The external solver (bonmin via pyomo) is a black box: its
  termination status is an abstract datum, and only the post-solve
  handling (`assert_optimal_termination` and the construction of the
  returned triple) is modelled.
-/

namespace AlphaDS

/-- Python `max(l)` for a non-empty list (junk value 0 for `[]`). -/
def pymax : List ℚ → ℚ
  | [] => 0
  | x :: xs => xs.foldl max x

/-- Python `min(l)` for a non-empty list (junk value 0 for `[]`). -/
def pymin : List ℚ → ℚ
  | [] => 0
  | x :: xs => xs.foldl min x

/-- Round a rational to the nearest integer, ties to even
(Python's `round` semantics on exact values). -/
def halfEvenZ (q : ℚ) : ℤ :=
  if q - ⌊q⌋ < 1 / 2 then ⌊q⌋
  else if 1 / 2 < q - ⌊q⌋ then ⌊q⌋ + 1
  else if ⌊q⌋ % 2 = 0 then ⌊q⌋ else ⌊q⌋ + 1

/-- Python `round(x, d)`: round to `d` decimal digits, ties to even. -/
def pyRound (d : ℕ) (x : ℚ) : ℚ :=
  (halfEvenZ (x * 10 ^ d) : ℚ) / 10 ^ d

/-- Model of `np.arange(start, stop, step)` for `step ≠ 0`:
`ceil((stop - start)/step)` values `start + k·step`.  (For `step = 0`
numpy raises; here the ℚ convention `x / 0 = 0` makes the result `[]`,
a junk value that no lattice theorem relies on.) -/
def pyArange (start stop step : ℚ) : List ℚ :=
  (List.range (⌈(stop - start) / step⌉.toNat)).map (fun k => start + k * step)

/-- Source `call_payoff(i, K, S1) = max(S1[i] - K, 0)`. -/
def call_payoff (i : ℕ) (K : ℚ) (S1 : List ℚ) : ℚ :=
  max (S1.getD i 0 - K) 0

/-- Source `put_payoff(i, K, S1) = max(K - S1[i], 0)`. -/
def put_payoff (i : ℕ) (K : ℚ) (S1 : List ℚ) : ℚ :=
  max (K - S1.getD i 0) 0

/-- Source `min_call`: running minimum initialised to `max(S1)`,
updated over the indices in `S`. -/
def min_call (S : List ℕ) (K : ℚ) (S1 : List ℚ) : ℚ :=
  S.foldl (fun mv i => if call_payoff i K S1 < mv then call_payoff i K S1 else mv)
    (pymax S1)

/-- Source `max_call`: running maximum initialised to `0`,
updated over the indices in `S`. -/
def max_call (S : List ℕ) (K : ℚ) (S1 : List ℚ) : ℚ :=
  S.foldl (fun mv i => if mv < call_payoff i K S1 then call_payoff i K S1 else mv) 0

/-- Source `min_put`: running minimum initialised to `max(S1)`. -/
def min_put (S : List ℕ) (K : ℚ) (S1 : List ℚ) : ℚ :=
  S.foldl (fun mv i => if put_payoff i K S1 < mv then put_payoff i K S1 else mv)
    (pymax S1)

/-- Source `max_put`: running maximum initialised to `0`. -/
def max_put (S : List ℕ) (K : ℚ) (S1 : List ℚ) : ℚ :=
  S.foldl (fun mv i => if mv < put_payoff i K S1 then put_payoff i K S1 else mv) 0

/-- `itertools.combinations`: all `k`-element sublists of `l`, in the
order produced by itertools (lexicographic by position). -/
def combinations : ℕ → List ℕ → List (List ℕ)
  | 0, _ => [[]]
  | _ + 1, [] => []
  | k + 1, x :: xs => ((combinations k xs).map (fun c => x :: c)) ++ combinations (k + 1) xs

/-- `more_itertools.powerset(l)`: subsets by increasing size, each size
block in `itertools.combinations` order. -/
def powersetList (l : List ℕ) : List (List ℕ) :=
  ((List.range (l.length + 1)).map (fun r => combinations r l)).flatten

/-- Source `pw`: the power set of `range n` with the leading empty
subset removed (`pw.pop(0)`). -/
def pw (n : ℕ) : List (List ℕ) :=
  (powersetList (List.range n)).tail

/-- Source dictionary `d_pw`: variable index to subset
(`dict(zip(I_vars, pw))`). -/
def d_pw (n : ℕ) (i : ℕ) : List ℕ :=
  (pw n).getD i []

/-- Source `I_vars = list(range(len(pw)))`: number of decision weights. -/
def nvars (n : ℕ) : ℕ :=
  (pw n).length

/-- Source bin width `step = (S1_max - S1_min) / n` with
`S1_min = round(min(series), 0)` and `S1_max = round(max(series), 0)`. -/
def latticeStep (series : List ℚ) (n : ℕ) : ℚ :=
  (pyRound 0 (pymax series) - pyRound 0 (pymin series)) / (n : ℚ)

/-- Source `S1_range = np.arange(S1_min, S1_max + 1, step)`. -/
def latticeRange (series : List ℚ) (n : ℕ) : List ℚ :=
  pyArange (pyRound 0 (pymin series)) (pyRound 0 (pymax series) + 1) (latticeStep series n)

/-- Source representative lattice
`S1 = [round((S1_range[i+1] + S1_range[i]) / 2, 1) for i in range(n)]`. -/
def S1_lattice (series : List ℚ) (n : ℕ) : List ℚ :=
  (List.range n).map
    (fun i => pyRound 1 (((latticeRange series n).getD (i + 1) 0 +
      (latticeRange series n).getD i 0) / 2))

/-- Source mixed price `alpha_p = alpha * bid + (1 - alpha) * ask`. -/
def alpha_price (alpha bid ask : ℚ) : ℚ :=
  alpha * bid + (1 - alpha) * ask

/-- Source call gamble coefficient
`round(alpha * min_call(...) + (1 - alpha) * max_call(...), 6)`. -/
def alpha_gamble_call (alpha K : ℚ) (S : List ℕ) (S1 : List ℚ) : ℚ :=
  pyRound 6 (alpha * min_call S K S1 + (1 - alpha) * max_call S K S1)

/-- Source put gamble coefficient
`round(alpha * min_put(...) + (1 - alpha) * max_put(...), 6)`. -/
def alpha_gamble_put (alpha K : ℚ) (S : List ℕ) (S1 : List ℚ) : ℚ :=
  pyRound 6 (alpha * min_put S K S1 + (1 - alpha) * max_put S K S1)

/-- Source `epsilon = 0.0001`. -/
def epsilon : ℚ := 1 / 10000

/-- Source `BoundsIntializer`: lower bound `0` when
`I_singletons.count(i) == 0`, and `epsilon` otherwise (the upper bound
is `None`, i.e. unbounded above). -/
def BoundsIntializer (n : ℕ) (i : ℕ) : ℚ :=
  if (List.range n).count i = 0 then 0 else epsilon

/-- Boolean strict lexicographic comparison of index lists
(elementwise `<` on ℕ, shorter-with-equal-head first). -/
def lexLtB : List ℕ → List ℕ → Bool
  | [], [] => false
  | [], _ :: _ => true
  | _ :: _, [] => false
  | a :: s, b :: t => if a < b then true else if a = b then lexLtB s t else false

/-- Strict lexicographic order on index lists. -/
def lexLt (s t : List ℕ) : Prop :=
  lexLtB s t = true

/-- The enumeration order of the subset enumerator: increasing size,
then lexicographic composition. -/
def subsetOrder (s t : List ℕ) : Prop :=
  s.length < t.length ∨ (s.length = t.length ∧ lexLt s t)

/-- An assignment of values to the decision variables of the pyomo
model: weights `m`, per-call errors `ec`, per-put errors `ep`, and the
aggregate error `err`. -/
structure ModelPoint where
  m : ℕ → ℚ
  ec : ℕ → ℚ
  ep : ℕ → ℚ
  err : ℚ

/-- The data the optimizer consumes: state count `n`, risk-free return
`R`, gamble coefficient matrices, market mixed prices, and the number
of call and put quotes. -/
structure CalibData where
  n : ℕ
  R : ℚ
  gcall : ℕ → ℕ → ℚ
  gput : ℕ → ℕ → ℚ
  pcall : ℕ → ℚ
  pput : ℕ → ℚ
  ncalls : ℕ
  nputs : ℕ

/-- The feasible set of the pyomo model exactly as the source builds
it: variable domains (`NonNegativeReals` plus `BoundsIntializer` lower
bounds, no upper bounds), the normalization constraint `c_norm`, the
per-quote equality constraints `c_calls` / `c_puts`, and the aggregate
constraint `c_err`. -/
def codeFeasible (D : CalibData) (x : ModelPoint) : Prop :=
  (∀ i < nvars D.n, BoundsIntializer D.n i ≤ x.m i ∧ 0 ≤ x.m i) ∧
  (∀ i < D.ncalls, 0 ≤ x.ec i) ∧
  (∀ i < D.nputs, 0 ≤ x.ep i) ∧
  0 ≤ x.err ∧
  ((List.range (nvars D.n)).map x.m).sum = 1 ∧
  (∀ i < D.ncalls,
    x.ec i = (((List.range (nvars D.n)).map (fun j => D.gcall i j * x.m j)).sum / D.R -
      D.pcall i) ^ 2) ∧
  (∀ i < D.nputs,
    x.ep i = (((List.range (nvars D.n)).map (fun j => D.gput i j * x.m j)).sum / D.R -
      D.pput i) ^ 2) ∧
  x.err = ((List.range D.ncalls).map x.ec).sum + ((List.range D.nputs).map x.ep).sum

/-- The source objective: the aggregate error variable. -/
def codeObjective (x : ModelPoint) : ℚ :=
  x.err

/-- Optimization sense. -/
inductive OptSense
  | minimize
  | maximize
deriving DecidableEq

/-- The source solves with `sense=pyo.minimize`. -/
def codeSense : OptSense :=
  OptSense.minimize

/-- Modelled from the spec's words for the refinement claim about the
program structure: lower bound `epsilon` for weights of singleton
subsets and `0` for all other subsets. -/
def claimLowerBound (n : ℕ) (i : ℕ) : ℚ :=
  if (d_pw n i).length = 1 then epsilon else 0

/-- Modelled from the spec's words for the refinement claim about the
program structure: one weight per subset index bounded below by
`claimLowerBound` with no upper bound, non-negative error variables,
weights summing to exactly 1, one squared-residual equality per call
and per put quote, and an aggregate error equal to the sum of the
per-quote errors. -/
def claimFeasible (D : CalibData) (x : ModelPoint) : Prop :=
  (∀ i < nvars D.n, claimLowerBound D.n i ≤ x.m i ∧ 0 ≤ x.m i) ∧
  (∀ i < D.ncalls, 0 ≤ x.ec i) ∧
  (∀ i < D.nputs, 0 ≤ x.ep i) ∧
  0 ≤ x.err ∧
  ((List.range (nvars D.n)).map x.m).sum = 1 ∧
  (∀ i < D.ncalls,
    x.ec i = (((List.range (nvars D.n)).map (fun j => D.gcall i j * x.m j)).sum / D.R -
      D.pcall i) ^ 2) ∧
  (∀ i < D.nputs,
    x.ep i = (((List.range (nvars D.n)).map (fun j => D.gput i j * x.m j)).sum / D.R -
      D.pput i) ^ 2) ∧
  x.err = ((List.range D.ncalls).map x.ec).sum + ((List.range D.nputs).map x.ep).sum

/-- Modelled from the spec's words: the objective minimizes the
aggregate error. -/
def claimObjective (x : ModelPoint) : ℚ :=
  x.err

/-- Modelled from the spec's words: the objective sense is minimize. -/
def claimSense : OptSense :=
  OptSense.minimize

/-- Termination outcome reported by the external solver.  The
`optimal` constructor stands for the statuses that pyomo's
`assert_optimal_termination` accepts (solver status `ok` with an
optimal termination condition); the others are the rejected ones. -/
inductive TermStatus
  | optimal
  | infeasible
  | unbounded
  | nonOptimal
deriving DecidableEq

/-- The error surfaced when the solver does not terminate optimally
(`assert_optimal_termination` raises and `optimal_m` returns nothing). -/
inductive CalibError
  | optimizationFailure
deriving DecidableEq

/-- The tail of `optimal_m`: `assert_optimal_termination(status)`
followed by `return (opt_E, opt_m, d_pw)`.  A non-optimal status
aborts with an error before anything is returned. -/
def solveReturn (st : TermStatus) (E : ℚ) (mv : ℕ → ℚ) (n : ℕ) :
    Except CalibError (ℚ × (ℕ → ℚ) × (ℕ → List ℕ)) :=
  if st = TermStatus.optimal then Except.ok (E, mv, d_pw n)
  else Except.error CalibError.optimizationFailure

lemma foldl_min_le_init (f : ℕ → ℚ) :
    ∀ (S : List ℕ) (a : ℚ), S.foldl (fun mv i => min mv (f i)) a ≤ a := by
  intro S
  induction S with
  | nil => intro a; exact le_refl a
  | cons x xs ih =>
    intro a
    exact le_trans (ih (min a (f x))) (min_le_left _ _)

lemma foldl_min_le_mem (f : ℕ → ℚ) :
    ∀ (S : List ℕ) (a : ℚ) {i : ℕ}, i ∈ S →
      S.foldl (fun mv i => min mv (f i)) a ≤ f i := by
  intro S
  induction S with
  | nil => intro a i hi; cases hi
  | cons x xs ih =>
    intro a i hi
    rcases List.mem_cons.mp hi with h | h
    · subst h
      exact le_trans (foldl_min_le_init f xs (min a (f i))) (min_le_right _ _)
    · exact ih (min a (f x)) h

lemma foldl_min_eq_init_or_mem (f : ℕ → ℚ) :
    ∀ (S : List ℕ) (a : ℚ),
      S.foldl (fun mv i => min mv (f i)) a = a ∨
      ∃ i ∈ S, S.foldl (fun mv i => min mv (f i)) a = f i := by
  intro S
  induction S with
  | nil => intro a; exact Or.inl rfl
  | cons x xs ih =>
    intro a
    rcases ih (min a (f x)) with h | ⟨i, hi, h⟩
    · rcases min_cases a (f x) with ⟨hm, _⟩ | ⟨hm, _⟩
      · exact Or.inl (by rw [List.foldl_cons, h, hm])
      · exact Or.inr ⟨x, List.mem_cons_self x xs, by rw [List.foldl_cons, h, hm]⟩
    · exact Or.inr ⟨i, List.mem_cons_of_mem x hi, h⟩

lemma init_le_foldl_max (f : ℕ → ℚ) :
    ∀ (S : List ℕ) (a : ℚ), a ≤ S.foldl (fun mv i => max mv (f i)) a := by
  intro S
  induction S with
  | nil => intro a; exact le_refl a
  | cons x xs ih =>
    intro a
    exact le_trans (le_max_left _ _) (ih (max a (f x)))

lemma mem_le_foldl_max (f : ℕ → ℚ) :
    ∀ (S : List ℕ) (a : ℚ) {i : ℕ}, i ∈ S →
      f i ≤ S.foldl (fun mv i => max mv (f i)) a := by
  intro S
  induction S with
  | nil => intro a i hi; cases hi
  | cons x xs ih =>
    intro a i hi
    rcases List.mem_cons.mp hi with h | h
    · subst h
      exact le_trans (le_max_right _ _) (init_le_foldl_max f xs (max a (f i)))
    · exact ih (max a (f x)) h

lemma foldl_max_eq_init_or_mem (f : ℕ → ℚ) :
    ∀ (S : List ℕ) (a : ℚ),
      S.foldl (fun mv i => max mv (f i)) a = a ∨
      ∃ i ∈ S, S.foldl (fun mv i => max mv (f i)) a = f i := by
  intro S
  induction S with
  | nil => intro a; exact Or.inl rfl
  | cons x xs ih =>
    intro a
    rcases ih (max a (f x)) with h | ⟨i, hi, h⟩
    · rcases max_cases a (f x) with ⟨hm, _⟩ | ⟨hm, _⟩
      · exact Or.inl (by rw [List.foldl_cons, h, hm])
      · exact Or.inr ⟨x, List.mem_cons_self x xs, by rw [List.foldl_cons, h, hm]⟩
    · exact Or.inr ⟨i, List.mem_cons_of_mem x hi, h⟩

lemma min_call_eq_foldl (S : List ℕ) (K : ℚ) (S1 : List ℚ) :
    min_call S K S1 =
      S.foldl (fun mv i => min mv (call_payoff i K S1)) (pymax S1) := by
  unfold min_call
  refine List.foldl_ext _ _ _ (fun a i _ => ?_)
  rw [min_def]
  rcases lt_or_ge (call_payoff i K S1) a with h | h
  · rw [if_pos h, if_neg (not_le.mpr h)]
  · rw [if_neg (not_lt.mpr h), if_pos h]

lemma max_call_eq_foldl (S : List ℕ) (K : ℚ) (S1 : List ℚ) :
    max_call S K S1 =
      S.foldl (fun mv i => max mv (call_payoff i K S1)) 0 := by
  unfold max_call
  refine List.foldl_ext _ _ _ (fun a i _ => ?_)
  rw [max_def]
  split_ifs <;> linarith

lemma min_put_eq_foldl (S : List ℕ) (K : ℚ) (S1 : List ℚ) :
    min_put S K S1 =
      S.foldl (fun mv i => min mv (put_payoff i K S1)) (pymax S1) := by
  unfold min_put
  refine List.foldl_ext _ _ _ (fun a i _ => ?_)
  rw [min_def]
  rcases lt_or_ge (put_payoff i K S1) a with h | h
  · rw [if_pos h, if_neg (not_le.mpr h)]
  · rw [if_neg (not_lt.mpr h), if_pos h]

lemma max_put_eq_foldl (S : List ℕ) (K : ℚ) (S1 : List ℚ) :
    max_put S K S1 =
      S.foldl (fun mv i => max mv (put_payoff i K S1)) 0 := by
  unfold max_put
  refine List.foldl_ext _ _ _ (fun a i _ => ?_)
  rw [max_def]
  split_ifs <;> linarith

lemma length_of_mem_combinations :
    ∀ {k : ℕ} {l : List ℕ} {c : List ℕ}, c ∈ combinations k l → c.length = k := by
  intro k l
  induction l generalizing k with
  | nil =>
    intro c hc
    match k with
    | 0 => rw [List.mem_singleton.mp hc]; rfl
    | _ + 1 => cases hc
  | cons x xs ih =>
    intro c hc
    match k with
    | 0 => rw [List.mem_singleton.mp hc]; rfl
    | k + 1 =>
      rcases List.mem_append.mp hc with h | h
      · obtain ⟨c', hc', rfl⟩ := List.mem_map.mp h
        simp [ih hc']
      · exact ih h

lemma sublist_of_mem_combinations :
    ∀ {k : ℕ} {l : List ℕ} {c : List ℕ}, c ∈ combinations k l → c.Sublist l := by
  intro k l
  induction l generalizing k with
  | nil =>
    intro c hc
    match k with
    | 0 => rw [List.mem_singleton.mp hc]
    | _ + 1 => cases hc
  | cons x xs ih =>
    intro c hc
    match k with
    | 0 => rw [List.mem_singleton.mp hc]; exact List.nil_sublist _
    | k + 1 =>
      rcases List.mem_append.mp hc with h | h
      · obtain ⟨c', hc', rfl⟩ := List.mem_map.mp h
        exact List.Sublist.cons₂ x (ih hc')
      · exact List.Sublist.cons x (ih h)

lemma length_combinations :
    ∀ (k : ℕ) (l : List ℕ), (combinations k l).length = Nat.choose l.length k := by
  intro k l
  induction l generalizing k with
  | nil =>
    match k with
    | 0 => rfl
    | _ + 1 => rfl
  | cons x xs ih =>
    match k with
    | 0 => simp [combinations]
    | k + 1 =>
      simp only [combinations, List.length_append, List.length_map, ih,
        List.length_cons, Nat.choose_succ_succ]

lemma combinations_one (l : List ℕ) :
    combinations 1 l = l.map (fun x => [x]) := by
  induction l with
  | nil => rfl
  | cons x xs ih => simp [combinations, ih]

lemma lexLt_cons_lt {a b : ℕ} (s t : List ℕ) (h : a < b) :
    lexLt (a :: s) (b :: t) := by
  simp [lexLt, lexLtB, h]

lemma lexLt_cons_same {a : ℕ} {s t : List ℕ} (h : lexLt s t) :
    lexLt (a :: s) (a :: t) := by
  simp only [lexLt, lexLtB, lt_irrefl, if_false, if_pos rfl]
  exact h

lemma lexLt_irrefl : ∀ s : List ℕ, ¬ lexLt s s := by
  intro s
  induction s with
  | nil => simp [lexLt, lexLtB]
  | cons a s ih => simpa [lexLt, lexLtB] using ih

lemma pairwise_lexLt_combinations :
    ∀ (k : ℕ) {l : List ℕ}, l.Pairwise (· < ·) →
      (combinations k l).Pairwise lexLt := by
  intro k l
  induction l generalizing k with
  | nil =>
    intro _
    match k with
    | 0 => exact List.pairwise_singleton _ _
    | _ + 1 => exact List.Pairwise.nil
  | cons x xs ih =>
    intro hl
    have hx : ∀ y ∈ xs, x < y := (List.pairwise_cons.mp hl).1
    have hxs : xs.Pairwise (· < ·) := (List.pairwise_cons.mp hl).2
    match k with
    | 0 => exact List.pairwise_singleton _ _
    | k + 1 =>
      rw [combinations, List.pairwise_append]
      refine ⟨?_, ih (k + 1) hxs, ?_⟩
      · rw [List.pairwise_map]
        exact (ih k hxs).imp lexLt_cons_same
      · intro a ha b hb
        obtain ⟨c, _, rfl⟩ := List.mem_map.mp ha
        match b, length_of_mem_combinations hb with
        | y :: t, _ =>
          have hy : y ∈ xs := (sublist_of_mem_combinations hb).subset (List.mem_cons_self y t)
          exact lexLt_cons_lt _ _ (hx y hy)

lemma combinations_zero (l : List ℕ) : combinations 0 l = [[]] := by
  cases l <;> rfl

lemma pw_eq_flatten (n : ℕ) :
    pw n = ((List.range n).map (fun r => combinations (r + 1) (List.range n))).flatten := by
  unfold pw powersetList
  rw [List.length_range, List.range_succ_eq_map, List.map_cons, List.map_map,
    List.flatten_cons, combinations_zero, List.singleton_append, List.tail_cons]
  rfl

lemma pw_split (m : ℕ) :
    pw (m + 1) = (List.range (m + 1)).map (fun x => [x]) ++
      ((List.range m).map (fun r => combinations (r + 2) (List.range (m + 1)))).flatten := by
  have h : ∀ l : List ℕ,
      ((List.range (m + 1)).map (fun r => combinations (r + 1) l)).flatten =
        l.map (fun x => [x]) ++ ((List.range m).map (fun r => combinations (r + 2) l)).flatten := by
    intro l
    rw [List.range_succ_eq_map, List.map_cons, List.flatten_cons, combinations_one,
      List.map_map]
    rfl
  rw [pw_eq_flatten]
  exact h (List.range (m + 1))

lemma list_range_map_sum (f : ℕ → ℕ) (n : ℕ) :
    ((List.range n).map f).sum = ∑ i ∈ Finset.range n, f i := by
  induction n with
  | zero => rfl
  | succ n ih => rw [List.range_succ, List.map_append, List.sum_append,
      Finset.sum_range_succ, ih]; rfl

lemma pw_length (n : ℕ) : (pw n).length = 2 ^ n - 1 := by
  rw [pw_eq_flatten, List.length_flatten, List.map_map]
  have h1 : (List.map (List.length ∘ fun r => combinations (r + 1) (List.range n))
      (List.range n)).sum = ∑ r ∈ Finset.range n, Nat.choose n (r + 1) := by
    rw [← list_range_map_sum]
    congr 1
    refine List.map_congr_left (fun r _ => ?_)
    simp [length_combinations]
  rw [h1]
  have h2 := Finset.sum_range_succ' (fun j => Nat.choose n j) n
  rw [Nat.sum_range_choose] at h2
  rw [Nat.choose_zero_right] at h2
  omega

lemma pw_getD_of_lt {n i : ℕ} (h : i < n) : (pw n).getD i [] = [i] := by
  match n, h with
  | m + 1, h =>
    rw [pw_split]
    rw [List.getD_append _ _ _ i (by simpa using h)]
    rw [List.getD_eq_getElem _ _ (by simpa using h)]
    simp

lemma pw_mem_rest_length {n i : ℕ} (hn : n ≤ i) (hi : i < (pw n).length) :
    2 ≤ ((pw n).getD i []).length := by
  match n with
  | 0 =>
    exfalso
    have : (pw 0).length = 0 := by rfl
    omega
  | m + 1 =>
    rw [pw_split] at hi ⊢
    have hlen : ((List.range (m + 1)).map (fun x => [x])).length = m + 1 := by simp
    rw [List.getD_append_right _ _ _ _ (by omega)]
    rw [List.length_append, hlen] at hi
    have hmem : ((((List.range m).map
        (fun r => combinations (r + 2) (List.range (m + 1)))).flatten).getD
          (i - (m + 1)) []) ∈
        (((List.range m).map (fun r => combinations (r + 2) (List.range (m + 1)))).flatten) := by
      rw [List.getD_eq_getElem _ _ (by omega)]
      exact List.getElem_mem _
    rw [hlen]
    obtain ⟨blk, hblk, hmem2⟩ := List.mem_flatten.mp hmem
    obtain ⟨r, _, rfl⟩ := List.mem_map.mp hblk
    rw [length_of_mem_combinations hmem2]
    omega

lemma pw_forall_mem {n : ℕ} {S : List ℕ} (hS : S ∈ pw n) :
    S ≠ [] ∧ S.Nodup ∧ ∀ x ∈ S, x < n := by
  rw [pw_eq_flatten] at hS
  obtain ⟨blk, hblk, hmem⟩ := List.mem_flatten.mp hS
  obtain ⟨r, _, rfl⟩ := List.mem_map.mp hblk
  have hsub := sublist_of_mem_combinations hmem
  have hlen := length_of_mem_combinations hmem
  refine ⟨List.ne_nil_of_length_pos (by omega), hsub.nodup (List.nodup_range n),
    fun x hx => List.mem_range.mp (hsub.subset hx)⟩

lemma pw_pairwise_subsetOrder (n : ℕ) : (pw n).Pairwise subsetOrder := by
  rw [pw_eq_flatten, List.pairwise_flatten]
  constructor
  · intro blk hblk
    obtain ⟨r, _, rfl⟩ := List.mem_map.mp hblk
    refine (pairwise_lexLt_combinations (r + 1) (List.pairwise_lt_range n)).imp_of_mem ?_
    intro a b ha hb hab
    exact Or.inr ⟨by rw [length_of_mem_combinations ha, length_of_mem_combinations hb], hab⟩
  · rw [List.pairwise_map]
    refine (List.pairwise_lt_range n).imp_of_mem ?_
    intro r r' _ _ hrr' a ha b hb
    exact Or.inl (by rw [length_of_mem_combinations ha, length_of_mem_combinations hb]; omega)

lemma pw_nodup (n : ℕ) : (pw n).Nodup := by
  refine (pw_pairwise_subsetOrder n).imp ?_
  intro a b hab
  rcases hab with h | ⟨_, h⟩
  · intro he; rw [he] at h; omega
  · intro he; rw [he] at h; exact lexLt_irrefl b h

lemma lb_eq {n i : ℕ} (hi : i < nvars n) :
    BoundsIntializer n i = claimLowerBound n i := by
  unfold BoundsIntializer claimLowerBound d_pw
  rcases lt_or_ge i n with h | h
  · rw [if_neg, if_pos]
    · rw [pw_getD_of_lt h]; rfl
    · rw [List.count_eq_zero]
      simp [List.mem_range, h]
  · rw [if_pos, if_neg]
    · have := pw_mem_rest_length h hi
      omega
    · rw [List.count_eq_zero]
      simp [List.mem_range]
      omega

lemma le_foldl_max_q : ∀ (l : List ℚ) (b : ℚ), b ≤ l.foldl max b := by
  intro l
  induction l with
  | nil => intro b; exact le_refl b
  | cons x xs ih =>
    intro b
    exact le_trans (le_max_left b x) (ih (max b x))

lemma mem_le_foldl_max_q : ∀ (l : List ℚ) (b : ℚ) {x : ℚ}, x ∈ l → x ≤ l.foldl max b := by
  intro l
  induction l with
  | nil => intro b x hx; cases hx
  | cons y ys ih =>
    intro b x hx
    rcases List.mem_cons.mp hx with h | h
    · subst h
      exact le_trans (le_max_right b x) (le_foldl_max_q ys (max b x))
    · exact ih (max b y) h

lemma le_pymax_of_mem {l : List ℚ} {x : ℚ} (hx : x ∈ l) : x ≤ pymax l := by
  match l, hx with
  | y :: ys, hx =>
    rcases List.mem_cons.mp hx with h | h
    · subst h; exact le_foldl_max_q ys x
    · exact mem_le_foldl_max_q ys y h

lemma pymax_pos {l : List ℚ} (hne : l ≠ []) (hpos : ∀ x ∈ l, 0 < x) : 0 < pymax l := by
  match l, hne with
  | y :: ys, _ =>
    exact lt_of_lt_of_le (hpos y (List.mem_cons_self y ys)) (le_pymax_of_mem (List.mem_cons_self y ys))

lemma call_payoff_nonneg (i : ℕ) (K : ℚ) (S1 : List ℚ) : 0 ≤ call_payoff i K S1 :=
  le_max_right _ _

lemma put_payoff_nonneg (i : ℕ) (K : ℚ) (S1 : List ℚ) : 0 ≤ put_payoff i K S1 :=
  le_max_right _ _

lemma call_payoff_le_pymax {i : ℕ} {K : ℚ} {S1 : List ℚ}
    (hi : i < S1.length) (hK0 : 0 ≤ K) (hK1 : K ≤ pymax S1) :
    call_payoff i K S1 ≤ pymax S1 := by
  unfold call_payoff
  have hmem : S1.getD i 0 ∈ S1 := by
    rw [List.getD_eq_getElem _ _ hi]; exact List.getElem_mem hi
  have h1 : S1.getD i 0 - K ≤ pymax S1 :=
    le_trans (by linarith) (le_pymax_of_mem hmem)
  exact max_le h1 (le_trans hK0 hK1)

lemma put_payoff_le_pymax {i : ℕ} {K : ℚ} {S1 : List ℚ}
    (hi : i < S1.length) (hnn : ∀ x ∈ S1, 0 ≤ x) (hK0 : 0 ≤ K) (hK1 : K ≤ pymax S1) :
    put_payoff i K S1 ≤ pymax S1 := by
  unfold put_payoff
  have hmem : S1.getD i 0 ∈ S1 := by
    rw [List.getD_eq_getElem _ _ hi]; exact List.getElem_mem hi
  have h0 : 0 ≤ S1.getD i 0 := hnn _ hmem
  have h1 : K - S1.getD i 0 ≤ pymax S1 := le_trans (by linarith) hK1
  exact max_le h1 (le_trans hK0 hK1)

lemma min_call_le {S : List ℕ} {K : ℚ} {S1 : List ℚ} {i : ℕ} (hi : i ∈ S) :
    min_call S K S1 ≤ call_payoff i K S1 := by
  rw [min_call_eq_foldl]
  exact foldl_min_le_mem _ S (pymax S1) hi

lemma min_put_le {S : List ℕ} {K : ℚ} {S1 : List ℚ} {i : ℕ} (hi : i ∈ S) :
    min_put S K S1 ≤ put_payoff i K S1 := by
  rw [min_put_eq_foldl]
  exact foldl_min_le_mem _ S (pymax S1) hi

lemma le_max_call {S : List ℕ} {K : ℚ} {S1 : List ℚ} {i : ℕ} (hi : i ∈ S) :
    call_payoff i K S1 ≤ max_call S K S1 := by
  rw [max_call_eq_foldl]
  exact mem_le_foldl_max _ S 0 hi

lemma le_max_put {S : List ℕ} {K : ℚ} {S1 : List ℚ} {i : ℕ} (hi : i ∈ S) :
    put_payoff i K S1 ≤ max_put S K S1 := by
  rw [max_put_eq_foldl]
  exact mem_le_foldl_max _ S 0 hi

lemma max_call_nonneg (S : List ℕ) (K : ℚ) (S1 : List ℚ) : 0 ≤ max_call S K S1 := by
  rw [max_call_eq_foldl]
  exact init_le_foldl_max _ S 0

lemma max_put_nonneg (S : List ℕ) (K : ℚ) (S1 : List ℚ) : 0 ≤ max_put S K S1 := by
  rw [max_put_eq_foldl]
  exact init_le_foldl_max _ S 0

lemma min_call_attained {S : List ℕ} {K : ℚ} {S1 : List ℚ} (hS : S ≠ [])
    (hle : ∀ i ∈ S, call_payoff i K S1 ≤ pymax S1) :
    ∃ i ∈ S, min_call S K S1 = call_payoff i K S1 := by
  rcases foldl_min_eq_init_or_mem (fun i => call_payoff i K S1) S (pymax S1) with h | h
  · match S, hS with
    | i0 :: S', _ =>
      refine ⟨i0, List.mem_cons_self i0 S', le_antisymm (min_call_le (List.mem_cons_self i0 S')) ?_⟩
      rw [min_call_eq_foldl, h]
      exact hle i0 (List.mem_cons_self i0 S')
  · rw [min_call_eq_foldl]
    exact h

lemma min_put_attained {S : List ℕ} {K : ℚ} {S1 : List ℚ} (hS : S ≠ [])
    (hle : ∀ i ∈ S, put_payoff i K S1 ≤ pymax S1) :
    ∃ i ∈ S, min_put S K S1 = put_payoff i K S1 := by
  rcases foldl_min_eq_init_or_mem (fun i => put_payoff i K S1) S (pymax S1) with h | h
  · match S, hS with
    | i0 :: S', _ =>
      refine ⟨i0, List.mem_cons_self i0 S', le_antisymm (min_put_le (List.mem_cons_self i0 S')) ?_⟩
      rw [min_put_eq_foldl, h]
      exact hle i0 (List.mem_cons_self i0 S')
  · rw [min_put_eq_foldl]
    exact h

lemma max_call_attained {S : List ℕ} {K : ℚ} {S1 : List ℚ} (hS : S ≠ []) :
    ∃ i ∈ S, max_call S K S1 = call_payoff i K S1 := by
  rcases foldl_max_eq_init_or_mem (fun i => call_payoff i K S1) S 0 with h | h
  · match S, hS with
    | i0 :: S', _ =>
      refine ⟨i0, List.mem_cons_self i0 S', le_antisymm ?_ (le_max_call (List.mem_cons_self i0 S'))⟩
      rw [max_call_eq_foldl, h]
      exact call_payoff_nonneg i0 K S1
  · rw [max_call_eq_foldl]
    exact h

lemma max_put_attained {S : List ℕ} {K : ℚ} {S1 : List ℚ} (hS : S ≠ []) :
    ∃ i ∈ S, max_put S K S1 = put_payoff i K S1 := by
  rcases foldl_max_eq_init_or_mem (fun i => put_payoff i K S1) S 0 with h | h
  · match S, hS with
    | i0 :: S', _ =>
      refine ⟨i0, List.mem_cons_self i0 S', le_antisymm ?_ (le_max_put (List.mem_cons_self i0 S'))⟩
      rw [max_put_eq_foldl, h]
      exact put_payoff_nonneg i0 K S1
  · rw [max_put_eq_foldl]
    exact h

lemma foldl_min_ge_of (f : ℕ → ℚ) :
    ∀ (S : List ℕ) (a c : ℚ), c ≤ a → (∀ i ∈ S, c ≤ f i) →
      c ≤ S.foldl (fun mv i => min mv (f i)) a := by
  intro S
  induction S with
  | nil => intro a c ha _; exact ha
  | cons x xs ih =>
    intro a c ha hf
    refine ih (min a (f x)) c (le_min ha (hf x (List.mem_cons_self x xs))) ?_
    exact fun i hi => hf i (List.mem_cons_of_mem x hi)

lemma pyRound_zero (x : ℚ) : pyRound 0 x = ((halfEvenZ x : ℤ) : ℚ) := by
  unfold pyRound
  norm_num

lemma arange_two {A B : ℤ} (h : A < B) :
    pyArange (A:ℚ) ((B:ℚ) + 1) ((B:ℚ) - (A:ℚ)) = [(A:ℚ), (B:ℚ)] := by
  have hq0 : (A:ℚ) < (B:ℚ) := by exact_mod_cast h
  have hd0 : (0:ℚ) < (B:ℚ) - A := by linarith
  have hd1 : (1:ℚ) ≤ (B:ℚ) - A := by
    have h1 : (A:ℤ) + 1 ≤ B := h
    have h2 : ((A:ℚ)) + 1 ≤ (B:ℚ) := by exact_mod_cast h1
    linarith
  have hq : ((B:ℚ) + 1 - A) / ((B:ℚ) - A) = 1 / ((B:ℚ) - A) + 1 := by
    field_simp
    ring
  have hc1 : (⌈(1:ℚ) / ((B:ℚ) - A)⌉ : ℤ) = 1 := by
    rw [Int.ceil_eq_iff]
    constructor
    · simpa using one_div_pos.mpr hd0
    · simpa using (div_le_one hd0).mpr hd1
  have hstep := Int.ceil_add_int ((1:ℚ) / ((B:ℚ) - A)) 1
  rw [Int.cast_one] at hstep
  have hc : (⌈((B:ℚ) + 1 - A) / ((B:ℚ) - A)⌉ : ℤ) = 2 := by
    rw [hq, hstep, hc1]
    norm_num
  unfold pyArange
  rw [hc]
  rw [show (2:ℤ).toNat = 2 from rfl, show List.range 2 = [0, 1] from rfl]
  simp

/-- Claim C3 (amended): for every price series whose rounded minimum
is strictly below its rounded maximum, discretization with `n = 1`
yields exactly one representative value, and that value is the
midpoint of the rounded minimum and the rounded maximum (not the
rounded maximum plus one), rounded to one decimal. -/
theorem C3_lattice_n1 (series : List ℚ)
    (h : pyRound 0 (pymin series) < pyRound 0 (pymax series)) :
    S1_lattice series 1 =
      [pyRound 1 ((pyRound 0 (pymin series) + pyRound 0 (pymax series)) / 2)] := by
  have hA := pyRound_zero (pymin series)
  have hB := pyRound_zero (pymax series)
  have hAB : halfEvenZ (pymin series) < halfEvenZ (pymax series) := by
    rw [hA, hB] at h
    exact_mod_cast h
  have hrange : latticeRange series 1 =
      [((halfEvenZ (pymin series) : ℤ) : ℚ), ((halfEvenZ (pymax series) : ℤ) : ℚ)] := by
    unfold latticeRange latticeStep
    rw [hA, hB, Nat.cast_one, div_one]
    exact arange_two hAB
  unfold S1_lattice
  simp only [hrange, hA, hB]
  rw [show List.range 1 = [0] from rfl]
  simp [List.getD]
  ring_nf

/-- Claim C3 witness: the concrete series `[100, 200]` satisfies the
hypothesis of `C3_lattice_n1` and instantiates its conclusion. -/
theorem C3_lattice_n1_witness :
    pyRound 0 (pymin [100, 200]) < pyRound 0 (pymax [100, 200]) ∧
    S1_lattice [100, 200] 1 =
      [pyRound 1 ((pyRound 0 (pymin [100, 200]) + pyRound 0 (pymax [100, 200])) / 2)] :=
  ⟨by norm_num [pymin, pymax, pyRound, halfEvenZ],
   C3_lattice_n1 [100, 200] (by norm_num [pymin, pymax, pyRound, halfEvenZ])⟩

/-- Claim C3 counterexample: for the series `[100, 200]` the code
produces the single representative `150`, which differs from the
midpoint of (rounded min, rounded max + 1) = `(100 + 201)/2 = 150.5`
named by the claim. -/
theorem C3_counterexample :
    S1_lattice [100, 200] 1 = [150] ∧
    (pyRound 0 (pymin [100, 200]) + (pyRound 0 (pymax [100, 200]) + 1)) / 2 = (301:ℚ) / 2 ∧
    ((150:ℚ)) ≠ 301 / 2 := by
  have e1 : pyRound 0 (100:ℚ) = 100 := by norm_num [pyRound, halfEvenZ]
  have e2 : pyRound 0 (200:ℚ) = 200 := by norm_num [pyRound, halfEvenZ]
  have hpmin : pymin [100, 200] = (100:ℚ) := by norm_num [pymin]
  have hpmax : pymax [100, 200] = (200:ℚ) := by norm_num [pymax]
  have hrange : latticeRange [100, 200] 1 = [100, 200] := by
    unfold latticeRange latticeStep
    rw [hpmin, hpmax, e1, e2, Nat.cast_one, div_one]
    rw [show (200:ℚ) - 100 = 100 by norm_num]
    have h2 : (⌈((101:ℚ)) / 100⌉ : ℤ) = 2 := by rw [Int.ceil_eq_iff]; norm_num
    unfold pyArange
    rw [show ((200:ℚ) + 1 - 100) / 100 = 101 / 100 by norm_num, h2]
    rw [show (2:ℤ).toNat = 2 from rfl, show List.range 2 = [0, 1] from rfl]
    norm_num
  refine ⟨?_, ?_, by norm_num⟩
  · unfold S1_lattice
    simp only [hrange]
    rw [show List.range 1 = [0] from rfl]
    simp [List.getD]
    norm_num [pyRound, halfEvenZ]
  · rw [hpmin, hpmax, e1, e2]
    norm_num

/-- Claim C2: the claim is right about the intended behavior and the
code lacks it.  For a constant price series the rounded minimum and
maximum coincide, the bin width `step` is 0, and the code proceeds to
call `np.arange` with a zero step (which raises numpy's generic
ZeroDivisionError); no DegenerateRangeError exists anywhere in the
code.  This theorem evaluates the code at the failing input. -/
theorem C2_degenerate_step :
    pyRound 0 (pymax [100, 100, 100]) = pyRound 0 (pymin [100, 100, 100]) ∧
    latticeStep [100, 100, 100] 5 = 0 := by
  constructor
  · norm_num [pymin, pymax]
  · norm_num [latticeStep, pymin, pymax]

/-- Claim C1 (amended): for every non-empty subset `S` of in-range
state indices, every price lattice `S1` with non-negative entries, and
every strike `K` with `0 ≤ K ≤ max(S1)`, the four evaluator functions
return exactly the minimum (resp. maximum) of the corresponding payoff
over the indices in `S`: each returned value is a bound for every
payoff in the subset and is attained at some index of the subset.
(For strikes outside `[0, max(S1)]` the two minimum functions are
instead clipped at `max(S1)`, their initialization value — see the
counterexample.) -/
theorem C1_payoff_minmax (S : List ℕ) (K : ℚ) (S1 : List ℚ)
    (hS : S ≠ []) (hidx : ∀ i ∈ S, i < S1.length) (hnn : ∀ x ∈ S1, 0 ≤ x)
    (hK0 : 0 ≤ K) (hK1 : K ≤ pymax S1) :
    ((∀ i ∈ S, min_call S K S1 ≤ call_payoff i K S1) ∧
      ∃ i ∈ S, min_call S K S1 = call_payoff i K S1) ∧
    ((∀ i ∈ S, call_payoff i K S1 ≤ max_call S K S1) ∧
      ∃ i ∈ S, max_call S K S1 = call_payoff i K S1) ∧
    ((∀ i ∈ S, min_put S K S1 ≤ put_payoff i K S1) ∧
      ∃ i ∈ S, min_put S K S1 = put_payoff i K S1) ∧
    ((∀ i ∈ S, put_payoff i K S1 ≤ max_put S K S1) ∧
      ∃ i ∈ S, max_put S K S1 = put_payoff i K S1) := by
  refine ⟨⟨fun i hi => min_call_le hi,
      min_call_attained hS (fun i hi => call_payoff_le_pymax (hidx i hi) hK0 hK1)⟩,
    ⟨fun i hi => le_max_call hi, max_call_attained hS⟩,
    ⟨fun i hi => min_put_le hi,
      min_put_attained hS (fun i hi => put_payoff_le_pymax (hidx i hi) hnn hK0 hK1)⟩,
    ⟨fun i hi => le_max_put hi, max_put_attained hS⟩⟩

/-- Claim C1 witness: the amended statement instantiated at
`S = [0, 1]`, `K = 130`, `S1 = [125, 175]`. -/
theorem C1_payoff_minmax_witness :
    (([0, 1] : List ℕ) ≠ []) ∧ (0:ℚ) ≤ 130 ∧ (130:ℚ) ≤ pymax [125, 175] ∧
    ((∀ i ∈ ([0, 1] : List ℕ),
        min_call [0, 1] (130:ℚ) [125, 175] ≤ call_payoff i 130 [125, 175]) ∧
      ∃ i ∈ ([0, 1] : List ℕ),
        min_call [0, 1] (130:ℚ) [125, 175] = call_payoff i 130 [125, 175]) := by
  have h := C1_payoff_minmax [0, 1] 130 [125, 175] (by decide)
    (by intro i hi; simp at hi; rcases hi with rfl | rfl <;> simp)
    (by intro x hx; simp at hx; rcases hx with rfl | rfl <;> norm_num)
    (by norm_num) (by norm_num [pymax])
  exact ⟨by decide, by norm_num, by norm_num [pymax], h.1⟩

/-- Claim C1 counterexample: the claim as stated (for every strike) is
false.  With lattice `S1 = [10]`, subset `S = [0]` and strike
`K = 100`, the only put payoff over `S` is `90`, so the minimum over
`S` is `90`, but `min_put` returns `10` (its initialization value
`max(S1)`). -/
theorem C1_counterexample :
    (∀ i ∈ ([0] : List ℕ), put_payoff i (100:ℚ) [10] = 90) ∧
    min_put [0] (100:ℚ) [10] = 10 ∧ min_put [0] (100:ℚ) [10] ≠ 90 := by
  refine ⟨?_, ?_, ?_⟩
  · intro i hi
    simp at hi
    subst hi
    norm_num [put_payoff]
  · norm_num [min_put, put_payoff, pymax]
  · norm_num [min_put, put_payoff, pymax]

/-- Claim C8: for every non-empty subset `S`, every strike `K`, and
every price lattice `S1` (a non-empty list of positive prices, per the
data model), `min_call ≤ max_call`, `min_put ≤ max_put`, and all four
values are non-negative. -/
theorem C8_payoff_bounds (S : List ℕ) (K : ℚ) (S1 : List ℚ)
    (hS : S ≠ []) (hS1 : S1 ≠ []) (hpos : ∀ x ∈ S1, 0 < x) :
    min_call S K S1 ≤ max_call S K S1 ∧
    min_put S K S1 ≤ max_put S K S1 ∧
    0 ≤ min_call S K S1 ∧ 0 ≤ max_call S K S1 ∧
    0 ≤ min_put S K S1 ∧ 0 ≤ max_put S K S1 := by
  have h0 : (0:ℚ) ≤ pymax S1 := le_of_lt (pymax_pos hS1 hpos)
  match S, hS with
  | i0 :: S', _ =>
    have hm : i0 ∈ i0 :: S' := List.mem_cons_self i0 S'
    refine ⟨le_trans (min_call_le hm) (le_max_call hm),
      le_trans (min_put_le hm) (le_max_put hm), ?_, max_call_nonneg _ _ _, ?_,
      max_put_nonneg _ _ _⟩
    · rw [min_call_eq_foldl]
      exact foldl_min_ge_of _ _ _ 0 h0 (fun i _ => call_payoff_nonneg i K S1)
    · rw [min_put_eq_foldl]
      exact foldl_min_ge_of _ _ _ 0 h0 (fun i _ => put_payoff_nonneg i K S1)

/-- Claim C8 witness: instantiated at `S = [0, 1]`, `K = 130`,
`S1 = [125, 175]`. -/
theorem C8_payoff_bounds_witness :
    (([0, 1] : List ℕ) ≠ []) ∧ (([125, 175] : List ℚ) ≠ []) ∧
    (min_call [0, 1] (130:ℚ) [125, 175] ≤ max_call [0, 1] (130:ℚ) [125, 175] ∧
      min_put [0, 1] (130:ℚ) [125, 175] ≤ max_put [0, 1] (130:ℚ) [125, 175] ∧
      0 ≤ min_call [0, 1] (130:ℚ) [125, 175] ∧ 0 ≤ max_call [0, 1] (130:ℚ) [125, 175] ∧
      0 ≤ min_put [0, 1] (130:ℚ) [125, 175] ∧ 0 ≤ max_put [0, 1] (130:ℚ) [125, 175]) := by
  have h := C8_payoff_bounds [0, 1] 130 [125, 175] (by decide)
    (by intro hc; cases hc)
    (by intro x hx; simp at hx; rcases hx with rfl | rfl <;> norm_num)
  refine ⟨by decide, ?_, h⟩
  intro hc
  cases hc

/-- Claim C5: for every `n ≥ 1` the subset enumerator produces exactly
`2^n - 1` entries, pairwise distinct, each a non-empty duplicate-free
subset of `{0, ..., n-1}`; their union covers the full state index
set; and the list is sorted in the canonical order (increasing size,
then lexicographic composition), the entry at position `i` being the
subset with index `i` in `d_pw`. -/
theorem C5_enumerator (n : ℕ) (hn : 1 ≤ n) :
    (pw n).length = 2 ^ n - 1 ∧
    (pw n).Nodup ∧
    (∀ S ∈ pw n, S ≠ [] ∧ S.Nodup ∧ ∀ x ∈ S, x < n) ∧
    (∀ x < n, ∃ S ∈ pw n, x ∈ S) ∧
    (pw n).Pairwise subsetOrder := by
  refine ⟨pw_length n, pw_nodup n, fun S hS => pw_forall_mem hS, ?_,
    pw_pairwise_subsetOrder n⟩
  intro x hx
  match n, hn with
  | m + 1, _ =>
    refine ⟨[x], ?_, List.mem_singleton_self x⟩
    rw [pw_split]
    exact List.mem_append_left _ (List.mem_map.mpr ⟨x, List.mem_range.mpr hx, rfl⟩)

/-- Claim C5 witness: the enumerator properties instantiated at
`n = 2`. -/
theorem C5_enumerator_witness :
    1 ≤ 2 ∧
    ((pw 2).length = 2 ^ 2 - 1 ∧
      (pw 2).Nodup ∧
      (∀ S ∈ pw 2, S ≠ [] ∧ S.Nodup ∧ ∀ x ∈ S, x < 2) ∧
      (∀ x < 2, ∃ S ∈ pw 2, x ∈ S) ∧
      (pw 2).Pairwise subsetOrder) :=
  ⟨by decide, C5_enumerator 2 (by decide)⟩

/-- Claim C10: for every `n`, the first `n` entries of the subset
index map are exactly the singletons `[0], ..., [n-1]` in increasing
order, and over the whole variable index range the `epsilon` lower
bound produced by `BoundsIntializer` is assigned exactly to the
singleton-subset weights and to no others. -/
theorem C10_singleton_epsilon (n : ℕ) :
    (∀ i < n, d_pw n i = [i]) ∧
    (∀ i < nvars n, (BoundsIntializer n i = epsilon ↔ (d_pw n i).length = 1)) := by
  constructor
  · intro i hi
    exact pw_getD_of_lt hi
  · intro i hi
    rw [lb_eq hi]
    unfold claimLowerBound
    split_ifs with h
    · simp [h]
    · simp only [h, iff_false]
      norm_num [epsilon]

/-- Claim C10 witness: instantiated at `n = 2`, singleton index 1 and
non-singleton index 2. -/
theorem C10_singleton_epsilon_witness :
    d_pw 2 1 = [1] ∧
    (BoundsIntializer 2 2 = epsilon ↔ (d_pw 2 2).length = 1) :=
  ⟨(C10_singleton_epsilon 2).1 1 (by decide),
   (C10_singleton_epsilon 2).2 2 (by decide)⟩

/-- Claim C4: the optimization program the source assembles has
exactly the structure the claim describes: the feasible sets defined
by the source bounds (`BoundsIntializer`, epsilon for variable indices
in `I_singletons`) and by the claim's bounds (epsilon exactly for
singleton subsets) coincide, constraint by constraint, and the
objective (minimize the aggregate error) is identical. -/
theorem C4_program_structure (D : CalibData) (x : ModelPoint) :
    (codeFeasible D x ↔ claimFeasible D x) ∧
    codeObjective x = claimObjective x ∧ codeSense = claimSense := by
  refine ⟨?_, rfl, rfl⟩
  unfold codeFeasible claimFeasible
  constructor
  · rintro ⟨h1, h⟩
    exact ⟨fun i hi => by rw [← lb_eq hi]; exact h1 i hi, h⟩
  · rintro ⟨h1, h⟩
    exact ⟨fun i hi => by rw [lb_eq hi]; exact h1 i hi, h⟩

/-- Claim C7: the calibration returns the triple (optimal error,
optimal weights, index-to-subset map) exactly when the solver reports
optimal termination; for any non-optimal status (infeasible,
unbounded, or otherwise non-optimal) it fails with
`optimizationFailure` and returns nothing. -/
theorem C7_solver_status (st : TermStatus) (E : ℚ) (mv : ℕ → ℚ) (n : ℕ) :
    ((∃ r, solveReturn st E mv n = Except.ok r) ↔ st = TermStatus.optimal) ∧
    (st ≠ TermStatus.optimal →
      solveReturn st E mv n = Except.error CalibError.optimizationFailure) ∧
    (st = TermStatus.optimal → solveReturn st E mv n = Except.ok (E, mv, d_pw n)) := by
  unfold solveReturn
  refine ⟨⟨?_, ?_⟩, fun h => by rw [if_neg h], fun h => by rw [if_pos h]⟩
  · rintro ⟨r, hr⟩
    by_contra h
    rw [if_neg h] at hr
    cases hr
  · intro h
    exact ⟨(E, mv, d_pw n), by rw [if_pos h]⟩

/-- Claim C7 witness: an infeasible status yields the failure, the
optimal status yields the triple. -/
theorem C7_solver_status_witness :
    solveReturn TermStatus.infeasible 0 (fun _ => 0) 2 =
      Except.error CalibError.optimizationFailure ∧
    solveReturn TermStatus.optimal 0 (fun _ => 0) 2 =
      Except.ok (0, (fun _ => 0), d_pw 2) :=
  ⟨(C7_solver_status TermStatus.infeasible 0 (fun _ => 0) 2).2.1 (by decide),
   (C7_solver_status TermStatus.optimal 0 (fun _ => 0) 2).2.2 rfl⟩

/-- Claim C6 (amended): for every quote and subset of in-range state
indices over a price lattice with non-negative entries, and every
strike `K` with `0 ≤ K ≤ max(S1)`, the gamble coefficient equals
`alpha` times the minimum payoff of that quote's option over the
subset plus `1 - alpha` times the maximum payoff, rounded to 6
decimal digits; and every quote's derived mixed price equals `alpha`
times its bid plus `1 - alpha` times its ask.  (For strikes above the
lattice maximum the minimum payoff in the coefficient is replaced by
the clipped `min_put`/`min_call` value — see the counterexample.) -/
theorem C6_gamble_coeffs (alpha K bid ask : ℚ) (S : List ℕ) (S1 : List ℚ)
    (hS : S ≠ []) (hidx : ∀ i ∈ S, i < S1.length) (hnn : ∀ x ∈ S1, 0 ≤ x)
    (hK0 : 0 ≤ K) (hK1 : K ≤ pymax S1) :
    (∃ imin ∈ S, ∃ imax ∈ S,
      (∀ i ∈ S, call_payoff imin K S1 ≤ call_payoff i K S1 ∧
        call_payoff i K S1 ≤ call_payoff imax K S1) ∧
      alpha_gamble_call alpha K S S1 =
        pyRound 6 (alpha * call_payoff imin K S1 + (1 - alpha) * call_payoff imax K S1)) ∧
    (∃ imin ∈ S, ∃ imax ∈ S,
      (∀ i ∈ S, put_payoff imin K S1 ≤ put_payoff i K S1 ∧
        put_payoff i K S1 ≤ put_payoff imax K S1) ∧
      alpha_gamble_put alpha K S S1 =
        pyRound 6 (alpha * put_payoff imin K S1 + (1 - alpha) * put_payoff imax K S1)) ∧
    alpha_price alpha bid ask = alpha * bid + (1 - alpha) * ask := by
  obtain ⟨icmin, hc1, hc2⟩ :=
    @min_call_attained S K S1 hS (fun i hi => call_payoff_le_pymax (hidx i hi) hK0 hK1)
  obtain ⟨icmax, hc3, hc4⟩ := @max_call_attained S K S1 hS
  obtain ⟨ipmin, hp1, hp2⟩ :=
    @min_put_attained S K S1 hS (fun i hi => put_payoff_le_pymax (hidx i hi) hnn hK0 hK1)
  obtain ⟨ipmax, hp3, hp4⟩ := @max_put_attained S K S1 hS
  refine ⟨⟨icmin, hc1, icmax, hc3, fun i hi => ⟨?_, ?_⟩, ?_⟩,
    ⟨ipmin, hp1, ipmax, hp3, fun i hi => ⟨?_, ?_⟩, ?_⟩, rfl⟩
  · rw [← hc2]; exact min_call_le hi
  · rw [← hc4]; exact le_max_call hi
  · unfold alpha_gamble_call
    rw [hc2, hc4]
  · rw [← hp2]; exact min_put_le hi
  · rw [← hp4]; exact le_max_put hi
  · unfold alpha_gamble_put
    rw [hp2, hp4]

/-- Claim C6 witness: the amended statement instantiated at
`alpha = 1/2`, `K = 130`, `S = [0, 1]`, `S1 = [125, 175]`,
`bid = 1`, `ask = 2`. -/
theorem C6_gamble_coeffs_witness :
    (([0, 1] : List ℕ) ≠ []) ∧ (130:ℚ) ≤ pymax [125, 175] ∧
    ((∃ imin ∈ ([0, 1] : List ℕ), ∃ imax ∈ ([0, 1] : List ℕ),
      (∀ i ∈ ([0, 1] : List ℕ),
        put_payoff imin (130:ℚ) [125, 175] ≤ put_payoff i 130 [125, 175] ∧
        put_payoff i (130:ℚ) [125, 175] ≤ put_payoff imax 130 [125, 175]) ∧
      alpha_gamble_put (1/2) 130 [0, 1] [125, 175] =
        pyRound 6 ((1/2) * put_payoff imin 130 [125, 175] +
          (1 - 1/2) * put_payoff imax 130 [125, 175])) ∧
    alpha_price (1/2) 1 2 = (1/2) * 1 + (1 - 1/2) * 2) := by
  have h := C6_gamble_coeffs (1/2) 130 1 2 [0, 1] [125, 175] (by decide)
    (by intro i hi; simp at hi; rcases hi with rfl | rfl <;> simp)
    (by intro x hx; simp at hx; rcases hx with rfl | rfl <;> norm_num)
    (by norm_num) (by norm_num [pymax])
  exact ⟨by decide, by norm_num [pymax], h.2.1, h.2.2⟩

/-- Claim C6 counterexample: the claim as stated (for every quote) is
false.  With `alpha = 1/2`, lattice `[20]`, subset `[0]`, strike
`K = 50`, the only put payoff is `30`, so `alpha` times the minimum
payoff plus `1 - alpha` times the maximum payoff is `30`, but the
code's coefficient is `25` because `min_put` is clipped at
`max(S1) = 20`. -/
theorem C6_counterexample :
    alpha_gamble_put (1/2) 50 [0] [20] = 25 ∧
    pyRound 6 ((1/2) * put_payoff 0 50 [20] + (1 - 1/2) * put_payoff 0 50 [20]) = 30 ∧
    (25:ℚ) ≠ 30 := by
  refine ⟨?_, ?_, by norm_num⟩
  · norm_num [alpha_gamble_put, min_put, max_put, put_payoff, pymax, pyRound, halfEvenZ]
  · norm_num [put_payoff, pyRound, halfEvenZ]

/-- Claim C9: the end-to-end worked example.  For any price series
with minimum 100 and maximum 200 and `n = 2`, the bin boundaries are
`[100, 150, 200]` and the representative lattice values are
`[125, 175]`; the subset enumerator for `n = 2` yields exactly
`[0]`, `[1]`, `[0, 1]` with indices 0, 1, 2 in that order; and for a
call with strike 130 over that lattice, `min_call` of the full subset
is 0 and `max_call` is 45. -/
theorem C9_worked_example (series : List ℚ)
    (hmin : pymin series = 100) (hmax : pymax series = 200) :
    latticeRange series 2 = [100, 150, 200] ∧
    S1_lattice series 2 = [125, 175] ∧
    pw 2 = [[0], [1], [0, 1]] ∧
    min_call [0, 1] 130 [125, 175] = 0 ∧
    max_call [0, 1] 130 [125, 175] = 45 := by
  have e1 : pyRound 0 (100:ℚ) = 100 := by norm_num [pyRound, halfEvenZ]
  have e2 : pyRound 0 (200:ℚ) = 200 := by norm_num [pyRound, halfEvenZ]
  have hrange : latticeRange series 2 = [100, 150, 200] := by
    unfold latticeRange latticeStep
    rw [hmin, hmax, e1, e2]
    rw [show ((200:ℚ) - 100) / ((2:ℕ):ℚ) = 50 by norm_num]
    rw [show (200:ℚ) + 1 = 201 by norm_num]
    have h3 : (⌈((101:ℚ)) / 50⌉ : ℤ) = 3 := by rw [Int.ceil_eq_iff]; norm_num
    unfold pyArange
    rw [show ((201:ℚ) - 100) / 50 = 101 / 50 by norm_num, h3]
    rw [show (3:ℤ).toNat = 3 from rfl, show List.range 3 = [0, 1, 2] from rfl]
    norm_num
  refine ⟨hrange, ?_, by decide, ?_, ?_⟩
  · unfold S1_lattice
    simp only [hrange]
    rw [show List.range 2 = [0, 1] from rfl]
    simp [List.getD]
    constructor <;> norm_num [pyRound, halfEvenZ]
  · norm_num [min_call, call_payoff, pymax]
  · norm_num [max_call, call_payoff, pymax]

/-- Claim C9 witness: the concrete series `[100, 200]` has minimum 100
and maximum 200 and instantiates the worked example. -/
theorem C9_worked_example_witness :
    pymin [100, 200] = 100 ∧ pymax [100, 200] = 200 ∧
    (latticeRange [100, 200] 2 = [100, 150, 200] ∧
      S1_lattice [100, 200] 2 = [125, 175] ∧
      pw 2 = [[0], [1], [0, 1]] ∧
      min_call [0, 1] 130 [125, 175] = 0 ∧
      max_call [0, 1] 130 [125, 175] = 45) :=
  ⟨by norm_num [pymin], by norm_num [pymax],
   C9_worked_example [100, 200] (by norm_num [pymin]) (by norm_num [pymax])⟩

end AlphaDS
